import Mathlib

/-!
Verification of the real-time term-spotting and display-coordination engine
of the lecture-assistant repository (`src/lecture-assistant/src/index.ts`).

Strings are modelled as `List Char`. JavaScript's `String.prototype.toLowerCase`
is modelled by `Char.toLower` mapped over the characters: the two agree on the
Basic Latin range, which is the range produced and consumed by the engine
(keywords and transcripts are ASCII in every code path modelled here).
The regex class `\w` (no `u` flag) is exactly `[A-Za-z0-9_]`; the class `\s`
is modelled by its ASCII subset, which is the only whitespace the engine
re-reads (normalization only ever emits the plain space `' '`).

JavaScript `Map` is modelled as an association list (insertion order, first
binding wins, `set` overwrites in place), `Set` as a duplicate-free list.
`Array.prototype.sort` is stable (ES2019), so the keyword sort of
`buildKeywordCache` is modelled by a stable insertion sort with the source's
comparator `([a], [b]) => b.length - a.length`.

The two `setTimeout` callbacks of the engine (auto-clear of the definition
display, 10-second clear of the recent-keyword set) are modelled as separate
state-transition functions (`displayTimerFire`, `recencyClearFire`) that the
environment may run between fragment-processing steps.
-/

abbrev Str := List Char

/-- JS `hay.includes(needle)`: substring containment test. -/
def strIncludes (hay needle : Str) : Bool :=
  match hay with
  | [] => needle.isEmpty
  | _ :: t => needle.isPrefixOf hay || strIncludes t needle

/-- JS `hay.indexOf(needle)`: index of the first occurrence, `-1` if absent. -/
def idxOf (hay needle : Str) : Int :=
  match hay with
  | [] => if needle.isEmpty then 0 else -1
  | _ :: t =>
    if needle.isPrefixOf hay then 0
    else
      let r := idxOf t needle
      if r = -1 then -1 else r + 1

/-- JS `text.split(" ")`: split on single spaces, keeping empty pieces. -/
def splitOnSpace : Str → List Str
  | [] => [[]]
  | c :: rest =>
    if c = ' ' then [] :: splitOnSpace rest
    else
      match splitOnSpace rest with
      | [] => [[c]]
      | w :: ws => (c :: w) :: ws

/-- `text.split(" ").filter((word) => word.length > 0)` as used by the matcher. -/
def splitWords (text : Str) : List Str :=
  (splitOnSpace text).filter (fun w => w.length > 0)

/-- JS `words.join(" ")`. -/
def joinSpace : List Str → Str
  | [] => []
  | [w] => w
  | w :: ws => w ++ ' ' :: joinSpace ws

/-- JS `words.join("-")`. -/
def joinHyphen : List Str → Str
  | [] => []
  | [w] => w
  | w :: ws => w ++ '-' :: joinHyphen ws

/-- The regex class `\w` of `index.ts` line 980 (no `u` flag): `[A-Za-z0-9_]`. -/
def isWordChar (c : Char) : Bool :=
  (97 ≤ c.toNat && c.toNat ≤ 122) || (65 ≤ c.toNat && c.toNat ≤ 90) ||
    (48 ≤ c.toNat && c.toNat ≤ 57) || c.toNat == 95

/-- The regex class `\s` (ASCII subset): space, tab, LF, VT, FF, CR. -/
def isJsSpace (c : Char) : Bool :=
  c.toNat == 32 || c.toNat == 9 || c.toNat == 10 ||
    c.toNat == 11 || c.toNat == 12 || c.toNat == 13

/-- Intermediate stage of `normalizeText`: replace every character that is
neither `\w` nor `\s` by a single space (line 980 of `index.ts`). -/
def punctToSpace (c : Char) : Char :=
  if isWordChar c || isJsSpace c then c else ' '

/-- Collapse every run of whitespace to one `' '` (line 981, `replace(/\s+/g, " ")`).
The flag records whether the previous character was part of a whitespace run. -/
def collapseWsAux (prevSpace : Bool) : Str → Str
  | [] => []
  | c :: rest =>
    if isJsSpace c then
      if prevSpace then collapseWsAux true rest
      else ' ' :: collapseWsAux true rest
    else c :: collapseWsAux false rest

def collapseWs (s : Str) : Str := collapseWsAux false s

/-- JS `String.prototype.trim` (whitespace at both ends removed). -/
def trimWs (s : Str) : Str :=
  (((s.dropWhile isJsSpace).reverse).dropWhile isJsSpace).reverse

/-- `normalizeText` of `index.ts` lines 977-983: lowercase, replace punctuation
with spaces, collapse whitespace runs, trim. -/
def normalizeText (text : Str) : Str :=
  trimWs (collapseWs ((text.map Char.toLower).map punctToSpace))

/-- A `{ isMatch, matchedText }` record of `index.ts`. -/
structure MatchResult where
  isMatch : Bool
  matchedText : Str
deriving DecidableEq, Repr

/-- The closed set of domain-suffix words of `isPermissiveMatch`
(`index.ts` lines 1047-1055), in source order. -/
def domainSuffixWords : List Str :=
  ["theory".toList, "duality".toList, "principle".toList,
   "equation".toList, "law".toList, "effect".toList, "model".toList]

/-- The significant-words branch of `isPermissiveMatch` (lines 1014-1037):
for multi-word terms, accept when the trailing `min(3, wordCount)` words are
all present (each longer than 2 characters) within 50 characters of each other. -/
def significantBranch (text : Str) (keywordWords : List Str) : Option MatchResult :=
  if 2 ≤ keywordWords.length then
    let significantWords :=
      keywordWords.drop (keywordWords.length - min 3 keywordWords.length)
    if significantWords.all (fun w => strIncludes text w && decide (2 < w.length)) then
      let wordPositions := significantWords.map (fun w => idxOf text w)
      let maxDistance :=
        (wordPositions.foldl max (wordPositions.headD 0)) -
          (wordPositions.foldl min (wordPositions.headD 0))
      if maxDistance < 50 then some ⟨true, joinSpace significantWords⟩ else none
    else none
  else none

/-- The pattern-suffix branch of `isPermissiveMatch` (lines 1039-1062): for
multi-word terms whose last word is longer than 4 characters and belongs to
`domainSuffixWords`, accept when `"<second-to-last> <last>"` occurs verbatim. -/
def patternSuffixBranch (text : Str) (keywordWords : List Str) : Option MatchResult :=
  if 2 ≤ keywordWords.length then
    let lastWord := keywordWords.getD (keywordWords.length - 1) []
    let secondLastWord := keywordWords.getD (keywordWords.length - 2) []
    if 4 < lastWord.length ∧ lastWord ∈ domainSuffixWords then
      let pattern := secondLastWord ++ ' ' :: lastWord
      if strIncludes text pattern then some ⟨true, pattern⟩ else none
    else none
  else none

/-- `isPermissiveMatch` of `index.ts` lines 988-1065: the sequence of
early-return checks is modelled as an if/match chain in source order. -/
def isPermissiveMatch (text keyword : Str) : MatchResult :=
  let normalizedKeyword := normalizeText keyword
  let keywordWords := splitWords normalizedKeyword
  if strIncludes text normalizedKeyword then ⟨true, normalizedKeyword⟩
  else if strIncludes text (joinHyphen keywordWords) then
    ⟨true, joinHyphen keywordWords⟩
  else if strIncludes text
      ((keyword.map Char.toLower).map (fun c => if c = '-' then ' ' else c)) then
    ⟨true, (keyword.map Char.toLower).map (fun c => if c = '-' then ' ' else c)⟩
  else
    match significantBranch text keywordWords with
    | some mr => mr
    | none =>
      match patternSuffixBranch text keywordWords with
      | some mr => mr
      | none => ⟨false, []⟩

/-- First `some` produced by `f` along a list (models a loop with `return`). -/
def firstSome (f : α → Option β) : List α → Option β
  | [] => none
  | a :: rest =>
    match f a with
    | some b => some b
    | none => firstSome f rest

/-- The inner keyword loop of `detectKeywordsInText` (lines 931-966): walk the
sorted keyword list, skip recent keywords, try the exact check and then (for
multi-word keywords in windows of size > 1) the permissive check. -/
def scanKeywords (recent : List Str) (window : Str) (windowSize : Nat) :
    List (Str × Str) → Option (Str × Str × MatchResult)
  | [] => none
  | (keyword, definition) :: rest =>
    if keyword ∈ recent then scanKeywords recent window windowSize rest
    else
      let normalizedKeyword := normalizeText keyword
      if window == normalizedKeyword || strIncludes window normalizedKeyword then
        some (keyword, definition, ⟨true, normalizedKeyword⟩)
      else if ' ' ∈ normalizedKeyword ∧ 1 < windowSize then
        let mr := isPermissiveMatch window keyword
        if mr.isMatch then some (keyword, definition, mr)
        else scanKeywords recent window windowSize rest
      else scanKeywords recent window windowSize rest

/-- The sliding-window scan of `detectKeywordsInText` (lines 918-968): window
sizes from `min(5, words.length)` down to 1, offsets left to right, first
acceptable keyword wins. -/
def slidingScan (sortedKeywords : List (Str × Str)) (recent : List Str)
    (words : List Str) : Option (Str × Str × MatchResult) :=
  firstSome
    (fun windowSize =>
      firstSome
        (fun i =>
          scanKeywords recent (joinSpace ((words.drop i).take windowSize))
            windowSize sortedKeywords)
        (List.range (words.length - windowSize + 1)))
    ((List.range (min 5 words.length)).reverse.map (· + 1))

/-- The per-session mutable fields of the engine (`index.ts` lines 46-52). -/
structure SessionState where
  sortedKeywords : List (Str × Str)
  keywordCache : List (Str × MatchResult)
  recentKeywords : List Str
  isShowingDefinition : Bool
  lastProcessedText : Str
deriving DecidableEq, Repr

/-- JS `Set.prototype.add`. -/
def setAdd (s : List Str) (k : Str) : List Str :=
  if k ∈ s then s else s ++ [k]

/-- JS `Map.prototype.set`. -/
def mapSet (m : List (Str × MatchResult)) (k : Str) (v : MatchResult) :
    List (Str × MatchResult) :=
  match m with
  | [] => [(k, v)]
  | (k', v') :: rest => if k' = k then (k, v) :: rest else (k', v') :: mapSet rest k v

/-- `detectKeywordsInText` (lines 892-972), parameterised over the
sliding-window matcher so that "the matcher is not invoked on a cache hit"
is expressible as independence from the parameter. Returns the updated state
and the `(keyword, definition)` pair handed to `displayKeywordDefinition`
(which sets `isShowingDefinition`, line 1076), if any. -/
def detectWith
    (matchFn : List (Str × Str) → List Str → List Str → Option (Str × Str × MatchResult))
    (s : SessionState) (normalizedText : Str) : SessionState × Option (Str × Str) :=
  match List.lookup normalizedText s.keywordCache with
  | some cachedResult =>
    if cachedResult.isMatch then
      match s.sortedKeywords.find?
          (fun kd => normalizeText kd.1 == cachedResult.matchedText ||
            kd.1.map Char.toLower == cachedResult.matchedText) with
      | some matchedKeyword =>
        if matchedKeyword.1 ∈ s.recentKeywords then (s, none)
        else
          ({ s with recentKeywords := setAdd s.recentKeywords matchedKeyword.1,
                    isShowingDefinition := true },
           some matchedKeyword)
      | none => (s, none)
    else (s, none)
  | none =>
    match matchFn s.sortedKeywords s.recentKeywords (splitWords normalizedText) with
    | some (keyword, definition, mr) =>
      ({ s with recentKeywords := setAdd s.recentKeywords keyword,
                keywordCache := mapSet s.keywordCache normalizedText mr,
                isShowingDefinition := true },
       some (keyword, definition))
    | none =>
      ({ s with keywordCache := mapSet s.keywordCache normalizedText ⟨false, []⟩ },
       none)

/-- `detectKeywordsInText` with the real sliding-window matcher plugged in. -/
def detectKeywordsInText (s : SessionState) (normalizedText : Str) :
    SessionState × Option (Str × Str) :=
  detectWith slidingScan s normalizedText

/-- `checkForKeywordsStreaming` (lines 833-873): entry guard on an empty index
or a visible definition, length guard, bookkeeping of `lastProcessedText`,
then keyword detection. The 10-second `setTimeout` scheduled on final text is
modelled by `recencyClearFire` below. -/
def checkForKeywordsStreaming (s : SessionState) (text : Str) (isFinal : Bool) :
    SessionState × Option (Str × Str) :=
  if s.sortedKeywords.length == 0 || s.isShowingDefinition then (s, none)
  else if (normalizeText text).length < 2 then (s, none)
  else if !isFinal then
    detectKeywordsInText { s with lastProcessedText := normalizeText text }
      (normalizeText text)
  else
    detectKeywordsInText { s with lastProcessedText := [] } (normalizeText text)

/-- The auto-clear `setTimeout` of `displayKeywordDefinition` (lines 1103-1105). -/
def displayTimerFire (s : SessionState) : SessionState :=
  { s with isShowingDefinition := false }

/-- The 10-second `setTimeout(() => this.recentKeywords.clear(), 10000)`
scheduled by `checkForKeywordsStreaming` on final text (line 864). -/
def recencyClearFire (s : SessionState) : SessionState :=
  { s with recentKeywords := [] }

/-- Stable insertion step for the keyword sort of `buildKeywordCache`:
an element is placed before the first element whose raw-term character length
is less than or equal to its own. -/
def insertByLenDesc (x : Str × Str) : List (Str × Str) → List (Str × Str)
  | [] => [x]
  | y :: ys => if y.1.length ≤ x.1.length then x :: y :: ys else y :: insertByLenDesc x ys

/-- The sort of `buildKeywordCache` (lines 816-828): the ES2019-stable
`Array.prototype.sort` with comparator `([a], [b]) => b.length - a.length`,
realised as a stable insertion sort by descending character length of the raw
keyword. -/
def sortKeywordEntries : List (Str × Str) → List (Str × Str)
  | [] => []
  | x :: xs => insertByLenDesc x (sortKeywordEntries xs)

/-- `buildKeywordCache` (lines 816-828): install the sorted keyword list and
clear the match cache. `entries` is `Array.from(keywordDefinitions.entries())`
in insertion order. -/
def buildKeywordCache (s : SessionState) (entries : List (Str × Str)) : SessionState :=
  { s with sortedKeywords := sortKeywordEntries entries, keywordCache := [] }

/-- Word count of a term, as the spec's "word count of `normalizedTerm`". -/
def wordCount (term : Str) : Nat := (splitWords (normalizeText term)).length
/-- No two adjacent whitespace characters. -/
def noTwoSpaces (l : Str) : Prop :=
  List.Chain' (fun a b => ¬(isJsSpace a = true ∧ isJsSpace b = true)) l


/-! ### Concrete data used to settle the claims -/

def qftKey : Str := "quantum field theory".toList

def fieldKey : Str := "field".toList

/-- Index holding both `"field"` and `"quantum field theory"` (spec §8). -/
def c1Index : List (Str × Str) := [(qftKey, "def1".toList), (fieldKey, "def2".toList)]

/-- A fragment that contains `"quantum field theory"` but whose first scanned
window (size 5, offset 0) contains only the word `"field"`. -/
def c1Fragment : Str := "the field here now is quantum field theory".toList
/-- The words of the phrase `"quantum field theory"`. -/
def quantumW : Str := "quantum".toList

def fieldW : Str := "field".toList

def theoryW : Str := "theory".toList

/-- Two keyword entries: 2 words / 5 characters vs 1 word / 11 characters. -/
def c2Entries : List (Str × Str) :=
  [("aa bb".toList, "d1".toList), ("lllllllllll".toList, "d2".toList)]

def eigenvalueKey : Str := "eigenvalue".toList

/-- A session whose match cache already holds a positive entry for the
fragment `"eigenvalue"`, with an empty Recency Set. -/
def c3State : SessionState :=
  ⟨[(eigenvalueKey, "dd".toList)], [(eigenvalueKey, ⟨true, eigenvalueKey⟩)], [], false, []⟩

/-- A session whose only keyword is on cooldown and whose cache is empty. -/
def c6State : SessionState :=
  ⟨[(eigenvalueKey, "dd".toList)], [], [eigenvalueKey], false, []⟩

/-- A fresh session with one keyword, empty cache, empty Recency Set. -/
def sampleState : SessionState :=
  ⟨[(eigenvalueKey, "dd".toList)], [], [], false, []⟩

/-- A session with an empty Term Index. -/
def emptyIndexState : SessionState := ⟨[], [], [], false, []⟩

/-- The state produced by processing the fragment `"eigenvalue"` from
`sampleState`: definition on display, term recent, positive cache entry. -/
def c5ShownState : SessionState :=
  ⟨[(eigenvalueKey, "dd".toList)], [(eigenvalueKey, ⟨true, eigenvalueKey⟩)],
   [eigenvalueKey], true, eigenvalueKey⟩

/-- The state produced by processing the fragment `"eigenvalue"` from
`c6State`: the non-match has been cached while the term was on cooldown. -/
def c6AfterState : SessionState :=
  ⟨[(eigenvalueKey, "dd".toList)], [(eigenvalueKey, ⟨false, []⟩)],
   [eigenvalueKey], false, []⟩

/-! ### Theorems settling the claims -/

set_option maxRecDepth 10000

/-- C1 (counterexample): with the built index holding exactly `"quantum field
theory"` and `"field"` and an empty Recency Set, the fragment
`"the field here now is quantum field theory"` does contain
`"quantum field theory"`, yet the sliding-window matcher surfaces `"field"`:
the size-5 window at offset 0 contains `"field"` but not the full phrase, and
it is scanned before any window containing the full phrase. -/
theorem c1_counterexample :
    strIncludes (normalizeText c1Fragment) qftKey = true ∧
    slidingScan (sortKeywordEntries c1Index) [] (splitWords (normalizeText c1Fragment))
      = some (fieldKey, "def2".toList, ⟨true, fieldKey⟩) := by decide

/-- C2 (counterexample): `buildKeywordCache` sorts by character length of the
raw term, not by word count of the normalized term: on entries
`"aa bb"` (2 words, 5 characters) and `"lllllllllll"` (1 word, 11 characters)
the built order puts the 1-word entry first, so the result is not in
descending word count. -/
theorem c2_counterexample :
    sortKeywordEntries c2Entries =
      [("lllllllllll".toList, "d2".toList), ("aa bb".toList, "d1".toList)] ∧
    wordCount ((sortKeywordEntries c2Entries).getD 0 ([], [])).1 <
      wordCount ((sortKeywordEntries c2Entries).getD 1 ([], [])).1 := by decide

/-- C3 (counterexample): on a cache hit whose stored result is a positive
match, `detectKeywordsInText` does touch the Recency Set: starting from
`c3State` (cached positive entry for `"eigenvalue"`, empty Recency Set),
re-detection on the cached fragment mutates the Recency Set. -/
theorem c3_counterexample :
    List.lookup eigenvalueKey c3State.keywordCache = some ⟨true, eigenvalueKey⟩ ∧
    (detectKeywordsInText c3State eigenvalueKey).1.recentKeywords
      ≠ c3State.recentKeywords := by decide

/-- C3 (amended): for every fragment already present in the match cache,
keyword detection returns without invoking the underlying sliding-window
matcher — the outcome is independent of the matcher plugged into
`detectWith` — and when the stored result is a non-match it returns the
stored result with no state change at all; however (unlike the claim), when
the stored result is a positive match the Recency Set is read and possibly
extended on the hit path. -/
theorem c3_amended
    (f g : List (Str × Str) → List Str → List Str → Option (Str × Str × MatchResult))
    (s : SessionState) (frag : Str) (r : MatchResult)
    (h : List.lookup frag s.keywordCache = some r) :
    detectWith f s frag = detectWith g s frag ∧
    (r.isMatch = false → detectWith f s frag = (s, none)) := by
  refine ⟨?_, ?_⟩
  · unfold detectWith
    rw [h]
  · intro hr
    unfold detectWith
    rw [h]
    simp [hr]

/-- Witness for C3 (amended) at a concrete cached fragment. -/
theorem c3_witness :
    detectWith slidingScan c3State eigenvalueKey
      = detectWith (fun _ _ _ => none) c3State eigenvalueKey :=
  (c3_amended slidingScan (fun _ _ _ => none) c3State eigenvalueKey
    ⟨true, eigenvalueKey⟩ (by decide)).1

/-- C7 (counterexample): `"isaac newtons law"` is a multi-word term whose last
word `"law"` is in the domain-suffix set, and the window
`"the newtons law here"` contains `"newtons law"` verbatim, yet
`isPermissiveMatch` rejects it: the pattern-suffix branch additionally
requires the last word to be longer than 4 characters, which `"law"` is not. -/
theorem c7_counterexample :
    (splitWords (normalizeText ("isaac newtons law".toList))).getD 2 [] = "law".toList ∧
    ("law".toList) ∈ domainSuffixWords ∧
    strIncludes ("the newtons law here".toList) ("newtons law".toList) = true ∧
    isPermissiveMatch ("the newtons law here".toList) ("isaac newtons law".toList)
      = ⟨false, []⟩ := by decide

/-- C8: determinism — the matcher is a pure function of the fragment, the
term index and the recency set: two runs on equal inputs return identical
results, both for the full detection step and for the sliding-window scan. -/
theorem c8_determinism (s s' : SessionState) (frag frag' : Str)
    (h₁ : s = s') (h₂ : frag = frag') :
    detectKeywordsInText s frag = detectKeywordsInText s' frag' ∧
    slidingScan s.sortedKeywords s.recentKeywords (splitWords frag)
      = slidingScan s'.sortedKeywords s'.recentKeywords (splitWords frag') := by
  subst h₁
  subst h₂
  exact ⟨rfl, rfl⟩

/-- Witness for C8 at a concrete state and fragment. -/
theorem c8_witness :
    detectKeywordsInText sampleState ("ab".toList)
      = detectKeywordsInText sampleState ("ab".toList) ∧
    slidingScan sampleState.sortedKeywords sampleState.recentKeywords
        (splitWords ("ab".toList))
      = slidingScan sampleState.sortedKeywords sampleState.recentKeywords
        (splitWords ("ab".toList)) :=
  c8_determinism sampleState sampleState ("ab".toList) ("ab".toList) rfl rfl

/-- C9: with an empty Term Index, processing any fragment surfaces nothing
and leaves the state unchanged (the guard of `checkForKeywordsStreaming`
returns immediately); being a total Lean function, it raises no error. -/
theorem c9_empty_index (s : SessionState) (text : Str) (isFinal : Bool)
    (h : s.sortedKeywords = []) :
    checkForKeywordsStreaming s text isFinal = (s, none) := by
  unfold checkForKeywordsStreaming
  rw [h]
  simp

/-- Witness for C9 at a concrete empty-index state. -/
theorem c9_witness :
    checkForKeywordsStreaming emptyIndexState ("hello world".toList) true
      = (emptyIndexState, none) :=
  c9_empty_index emptyIndexState ("hello world".toList) true rfl

/-- If `firstSome` produces a value, some list element produced it. -/
theorem firstSome_eq_some {α β : Type} {f : α → Option β} {l : List α} {b : β}
    (h : firstSome f l = some b) : ∃ a ∈ l, f a = some b := by
  induction l with
  | nil => simp [firstSome] at h
  | cons a rest ih =>
    simp only [firstSome] at h
    cases hfa : f a with
    | some b' =>
      rw [hfa] at h
      exact ⟨a, by simp, by rw [hfa]; exact h⟩
    | none =>
      rw [hfa] at h
      obtain ⟨x, hx, hfx⟩ := ih h
      exact ⟨x, by simp [hx], hfx⟩

/-- The keyword loop never returns a keyword that is in the recency set. -/
theorem scanKeywords_not_recent {recent : List Str} {window : Str} {wsize : Nat}
    {kws : List (Str × Str)} {kw d : Str} {mr : MatchResult}
    (h : scanKeywords recent window wsize kws = some (kw, d, mr)) : kw ∉ recent := by
  induction kws with
  | nil => simp [scanKeywords] at h
  | cons kd rest ih =>
    obtain ⟨k, df⟩ := kd
    simp only [scanKeywords] at h
    by_cases hrec : k ∈ recent
    · rw [if_pos hrec] at h
      exact ih h
    · rw [if_neg hrec] at h
      split at h
      · obtain ⟨rfl, rfl, rfl⟩ := by simpa using h
        exact hrec
      · split at h
        · split at h
          · obtain ⟨rfl, rfl, rfl⟩ := by simpa using h
            exact hrec
          · exact ih h
        · exact ih h

/-- The sliding-window scan never returns a keyword from the recency set. -/
theorem slidingScan_not_recent {idx : List (Str × Str)} {recent : List Str}
    {words : List Str} {kw d : Str} {mr : MatchResult}
    (h : slidingScan idx recent words = some (kw, d, mr)) : kw ∉ recent := by
  unfold slidingScan at h
  obtain ⟨w, _, hw⟩ := firstSome_eq_some h
  obtain ⟨i, _, hi⟩ := firstSome_eq_some hw
  exact scanKeywords_not_recent hi

/-- Any keyword surfaced by `detectKeywordsInText` — on the cache-hit path as
well as on the fresh-match path — was not in the Recency Set beforehand. -/
theorem detect_surfaced_not_recent {s : SessionState} {frag kw d : Str}
    (h : (detectKeywordsInText s frag).2 = some (kw, d)) : kw ∉ s.recentKeywords := by
  unfold detectKeywordsInText detectWith at h
  split at h
  · split at h
    · split at h
      · split at h
        · simp at h
        · rename_i hnotrec
          simp only at h
          obtain ⟨rfl, rfl⟩ := by simpa using h
          exact hnotrec
      · simp at h
    · simp at h
  · split at h
    · rename_i heq
      simp only at h
      obtain ⟨rfl, rfl⟩ := by simpa using h
      exact slidingScan_not_recent heq
    · simp at h

/-- C4: a term currently in the Recency Set is never surfaced by keyword
detection, on the cache-hit path (guarded by `!recentKeywords.has(...)`,
line 906) as well as on the fresh-match path (the `continue` of line 932) —
it stays suppressed until expiry (`recencyClearFire`) removes it. -/
theorem c4_recency_suppression (s : SessionState) (frag kw d : Str)
    (h : kw ∈ s.recentKeywords) :
    (detectKeywordsInText s frag).2 ≠ some (kw, d) :=
  fun hc => detect_surfaced_not_recent hc h

/-- Witness for C4: with `"eigenvalue"` on cooldown, a fragment containing
`"eigenvalue"` surfaces nothing. -/
theorem c4_witness :
    eigenvalueKey ∈ c6State.recentKeywords ∧
    (detectKeywordsInText c6State eigenvalueKey).2 ≠ some (eigenvalueKey, "dd".toList) :=
  ⟨by decide,
   c4_recency_suppression c6State eigenvalueKey eigenvalueKey ("dd".toList) (by decide)⟩

/-- When streaming detection surfaces a definition, the resulting state has
`isShowingDefinition` set (it is set before the display call, line 1076). -/
theorem detect_some_showing {s s' : SessionState} {frag : Str} {kd : Str × Str}
    (h : detectKeywordsInText s frag = (s', some kd)) : s'.isShowingDefinition = true := by
  unfold detectKeywordsInText detectWith at h
  split at h
  · split at h
    · split at h
      · split at h
        · simp at h
        · obtain ⟨rfl, -⟩ := by simpa [Prod.ext_iff] using h
          rfl
      · simp at h
    · simp at h
  · split at h
    · obtain ⟨rfl, -⟩ := by simpa [Prod.ext_iff] using h
      rfl
    · simp [Prod.ext_iff] at h

/-- Streaming-level version of `detect_some_showing`. -/
theorem checkStreaming_some_showing {s s' : SessionState} {t : Str} {b : Bool}
    {kd : Str × Str}
    (h : checkForKeywordsStreaming s t b = (s', some kd)) :
    s'.isShowingDefinition = true := by
  unfold checkForKeywordsStreaming at h
  split at h
  · simp [Prod.ext_iff] at h
  · split at h
    · simp [Prod.ext_iff] at h
    · split at h
      · exact detect_some_showing h
      · exact detect_some_showing h

/-- C5: single active display — if processing a fragment surfaces a
definition, then processing any further fragment before the auto-clear timer
fires (i.e. while `isShowingDefinition` is still set) is a complete no-op:
no second display and no state change, so two matches arriving before the
first match's auto-clear deadline yield exactly one display in total. -/
theorem c5_single_display (s s₁ : SessionState) (t₁ t₂ : Str) (b₁ b₂ : Bool)
    (kd : Str × Str)
    (h : checkForKeywordsStreaming s t₁ b₁ = (s₁, some kd)) :
    checkForKeywordsStreaming s₁ t₂ b₂ = (s₁, none) := by
  have hshow := checkStreaming_some_showing h
  unfold checkForKeywordsStreaming
  rw [hshow]
  simp

/-- Witness for C5: after `"eigenvalue"` is displayed, a second matching
fragment arriving before the deadline surfaces nothing. -/
theorem c5_witness :
    checkForKeywordsStreaming c5ShownState ("the spectrum of an eigenvalue".toList) true
      = (c5ShownState, none) :=
  c5_single_display sampleState c5ShownState ("eigenvalue".toList)
    ("the spectrum of an eigenvalue".toList) false true (eigenvalueKey, "dd".toList)
    (by decide)

/-- C6: the stale-negative-cache behaviour. Universally: once the cache holds
a negative entry for the fragment `"eigenvalue"`, detection replays the
non-match with no state change — the cache key does not include the recency
state, so this persists forever. Concretely: evaluating the fragment while
its only matching term is on cooldown caches `{isMatch: false}`; the cached
non-match is replayed even after the Recency Set is cleared; yet the same
fragment evaluated without the cooldown does match the term. -/
theorem c6_stale_negative_cache (s : SessionState)
    (h : List.lookup eigenvalueKey s.keywordCache = some ⟨false, []⟩) :
    detectKeywordsInText s eigenvalueKey = (s, none) ∧
    (detectKeywordsInText c6State eigenvalueKey).2 = none ∧
    List.lookup eigenvalueKey
        (detectKeywordsInText c6State eigenvalueKey).1.keywordCache = some ⟨false, []⟩ ∧
    (detectKeywordsInText
        (recencyClearFire (detectKeywordsInText c6State eigenvalueKey).1)
        eigenvalueKey).2 = none ∧
    (detectKeywordsInText { c6State with recentKeywords := [] } eigenvalueKey).2
      = some (eigenvalueKey, "dd".toList) := by
  refine ⟨?_, by decide, by decide, by decide, by decide⟩
  unfold detectKeywordsInText detectWith
  rw [h]
  simp

/-- Witness for C6 at the state reached after the first (suppressed)
evaluation. -/
theorem c6_witness :
    detectKeywordsInText c6AfterState eigenvalueKey = (c6AfterState, none) ∧
    (detectKeywordsInText c6State eigenvalueKey).2 = none ∧
    List.lookup eigenvalueKey
        (detectKeywordsInText c6State eigenvalueKey).1.keywordCache = some ⟨false, []⟩ ∧
    (detectKeywordsInText
        (recencyClearFire (detectKeywordsInText c6State eigenvalueKey).1)
        eigenvalueKey).2 = none ∧
    (detectKeywordsInText { c6State with recentKeywords := [] } eigenvalueKey).2
      = some (eigenvalueKey, "dd".toList) :=
  c6_stale_negative_cache c6AfterState (by decide)

/-- The significant-words branch only ever produces positive match results. -/
theorem significantBranch_isMatch {text : Str} {kws : List Str} {mr : MatchResult}
    (h : significantBranch text kws = some mr) : mr.isMatch = true := by
  simp only [significantBranch] at h
  split at h
  · split at h
    · split at h
      · obtain rfl := by simpa using h
        rfl
      · simp at h
    · simp at h
  · simp at h

/-- C7 (amended): the pattern-suffix acceptance holds for the domain-suffix
words longer than 4 characters — `"theory"`, `"duality"`, `"principle"`,
`"equation"`, `"effect"`, `"model"` — but not for `"law"`: the branch
additionally requires `lastWord.length > 4` (line 1046), so `"law"`,
although listed in the closed set, can never trigger it. For the six long
suffixes, any window containing `"<second-to-last word> <last word>"`
verbatim is accepted by the permissive matcher. -/
theorem c7_amended (window keyword lw slw : Str)
    (hlen : 2 ≤ (splitWords (normalizeText keyword)).length)
    (hlw : (splitWords (normalizeText keyword)).getD
        ((splitWords (normalizeText keyword)).length - 1) [] = lw)
    (hslw : (splitWords (normalizeText keyword)).getD
        ((splitWords (normalizeText keyword)).length - 2) [] = slw)
    (hmem : lw ∈ ["theory".toList, "duality".toList, "principle".toList,
                  "equation".toList, "effect".toList, "model".toList])
    (hpat : strIncludes window (slw ++ ' ' :: lw) = true) :
    (isPermissiveMatch window keyword).isMatch = true := by
  have hbig : 4 < lw.length := by
    rcases by simpa using hmem with rfl | rfl | rfl | rfl | rfl | rfl <;> decide
  have hmem7 : lw ∈ domainSuffixWords := by
    simp only [domainSuffixWords, List.mem_cons, List.not_mem_nil, or_false] at *
    tauto
  have hpb : patternSuffixBranch window (splitWords (normalizeText keyword))
      = some ⟨true, slw ++ ' ' :: lw⟩ := by
    simp only [patternSuffixBranch]
    rw [if_pos hlen, hlw, hslw, if_pos ⟨hbig, hmem7⟩, if_pos hpat]
  simp only [isPermissiveMatch]
  split
  · rfl
  · split
    · rfl
    · split
      · rfl
      · split
        · rename_i mr hmr
          exact significantBranch_isMatch hmr
        · rw [hpb]

/-- Witness for C7 (amended): the term `"string theory"` is accepted in the
window `"about string theory"`. -/
theorem c7_witness :
    (isPermissiveMatch ("about string theory".toList) ("string theory".toList)).isMatch
      = true :=
  c7_amended ("about string theory".toList) ("string theory".toList)
    ("theory".toList) ("string".toList)
    (by decide) (by decide) (by decide) (by decide) (by decide)

/-- Membership in the insertion step of the keyword sort. -/
theorem mem_insertByLenDesc {x y : Str × Str} {l : List (Str × Str)} :
    y ∈ insertByLenDesc x l ↔ y = x ∨ y ∈ l := by
  induction l with
  | nil => simp [insertByLenDesc]
  | cons z zs ih =>
    unfold insertByLenDesc
    split
    · simp [List.mem_cons]
    · simp only [List.mem_cons, ih]
      tauto

/-- The insertion step permutes. -/
theorem insertByLenDesc_perm (x : Str × Str) (l : List (Str × Str)) :
    List.Perm (insertByLenDesc x l) (x :: l) := by
  induction l with
  | nil => exact List.Perm.refl _
  | cons y ys ih =>
    unfold insertByLenDesc
    split
    · exact List.Perm.refl _
    · exact (ih.cons y).trans (List.Perm.swap x y ys)

/-- The keyword sort is a permutation of the input entries. -/
theorem sortKeywordEntries_perm (l : List (Str × Str)) :
    List.Perm (sortKeywordEntries l) l := by
  induction l with
  | nil => exact List.Perm.refl _
  | cons x xs ih =>
    simp only [sortKeywordEntries]
    exact (insertByLenDesc_perm x (sortKeywordEntries xs)).trans (ih.cons x)

/-- The insertion step preserves descending order by raw-term length. -/
theorem insertByLenDesc_sorted {x : Str × Str} {l : List (Str × Str)}
    (h : l.Pairwise (fun a b => b.1.length ≤ a.1.length)) :
    (insertByLenDesc x l).Pairwise (fun a b => b.1.length ≤ a.1.length) := by
  induction l with
  | nil => simp [insertByLenDesc]
  | cons y ys ih =>
    rw [List.pairwise_cons] at h
    obtain ⟨hy, hys⟩ := h
    unfold insertByLenDesc
    split
    · rename_i hle
      refine List.Pairwise.cons ?_ (List.Pairwise.cons hy hys)
      intro z hz
      rcases List.mem_cons.mp hz with rfl | hz'
      · exact hle
      · exact Nat.le_trans (hy z hz') hle
    · rename_i hgt
      refine List.Pairwise.cons ?_ (ih hys)
      intro z hz
      rcases mem_insertByLenDesc.mp hz with rfl | hz'
      · omega
      · exact hy z hz'

/-- The keyword sort orders entries by descending raw-term length. -/
theorem sortKeywordEntries_sorted (l : List (Str × Str)) :
    (sortKeywordEntries l).Pairwise (fun a b => b.1.length ≤ a.1.length) := by
  induction l with
  | nil => simp [sortKeywordEntries]
  | cons x xs ih =>
    simp only [sortKeywordEntries]
    exact insertByLenDesc_sorted ih

/-- Filtering the entries of one fixed length commutes with insertion. -/
theorem filter_insertByLenDesc (x : Str × Str) (l : List (Str × Str)) (n : Nat) :
    (insertByLenDesc x l).filter (fun e => e.1.length == n)
      = if x.1.length == n then x :: l.filter (fun e => e.1.length == n)
        else l.filter (fun e => e.1.length == n) := by
  induction l with
  | nil =>
    by_cases hx : x.1.length = n
    · simp [insertByLenDesc, List.filter_cons, hx]
    · simp [insertByLenDesc, List.filter_cons, hx]
  | cons y ys ih =>
    unfold insertByLenDesc
    split
    · rename_i hle
      by_cases hx : x.1.length = n
      · simp [List.filter_cons, hx]
      · simp [List.filter_cons, hx]
    · rename_i hgt
      by_cases hx : x.1.length = n
      · by_cases hy : y.1.length = n
        · omega
        · simp [List.filter_cons, hx, hy, ih]
      · by_cases hy : y.1.length = n <;> simp [List.filter_cons, hx, hy, ih]

/-- Stability: entries of one fixed raw-term length keep insertion order. -/
theorem sortKeywordEntries_stable (l : List (Str × Str)) (n : Nat) :
    (sortKeywordEntries l).filter (fun e => e.1.length == n)
      = l.filter (fun e => e.1.length == n) := by
  induction l with
  | nil => rfl
  | cons x xs ih =>
    simp only [sortKeywordEntries]
    rw [filter_insertByLenDesc, ih]
    by_cases hx : x.1.length = n
    · simp [List.filter_cons, hx]
    · simp [List.filter_cons, hx]

/-- C2 (amended): building the term index sorts the entries in descending
order of the character length of their raw term (the comparator is
`b.length - a.length` on the map keys, line 819) — not the word count of the
normalized term — and the sort is stable: it permutes the input, orders it by
descending raw-term length, and keeps entries of equal length in their
original insertion order (entries of each fixed length are filtered out
unchanged). -/
theorem c2_amended (entries : List (Str × Str)) :
    (sortKeywordEntries entries).Pairwise (fun a b => b.1.length ≤ a.1.length) ∧
    List.Perm (sortKeywordEntries entries) entries ∧
    ∀ n : Nat, (sortKeywordEntries entries).filter (fun e => e.1.length == n)
      = entries.filter (fun e => e.1.length == n) :=
  ⟨sortKeywordEntries_sorted entries, sortKeywordEntries_perm entries,
   sortKeywordEntries_stable entries⟩


/-- `strIncludes` is complete for substring containment. -/
theorem strIncludes_complete {hay needle : Str} (h : needle <:+: hay) :
    strIncludes hay needle = true := by
  induction hay with
  | nil =>
    rw [List.infix_nil] at h
    subst h
    rfl
  | cons c t ih =>
    rw [List.infix_cons_iff] at h
    unfold strIncludes
    rcases h with hp | hi
    · simp [List.isPrefixOf_iff_prefix, hp]
    · simp [ih hi]

/-- Unfolding `joinSpace` on a cons with a nonempty tail. -/
theorem joinSpace_cons_of_ne (w : Str) {ws : List Str} (h : ws ≠ []) :
    joinSpace (w :: ws) = w ++ ' ' :: joinSpace ws := by
  cases ws with
  | nil => exact absurd rfl h
  | cons y ys => rfl

/-- `joinSpace` distributes over append of nonempty word lists. -/
theorem joinSpace_append_of_ne {l₁ l₂ : List Str} (h₁ : l₁ ≠ []) (h₂ : l₂ ≠ []) :
    joinSpace (l₁ ++ l₂) = joinSpace l₁ ++ ' ' :: joinSpace l₂ := by
  induction l₁ with
  | nil => exact absurd rfl h₁
  | cons w ws ih =>
    cases ws with
    | nil => simpa using joinSpace_cons_of_ne w h₂
    | cons y ys =>
      rw [List.cons_append, joinSpace_cons_of_ne w (by simp),
        joinSpace_cons_of_ne w (by simp), ih (by simp)]
      simp

/-- A three-word phrase at the head of a word list is a prefix of the join. -/
theorem phrase_prefix_joinSpace (a b c : Str) (rest : List Str) :
    (a ++ ' ' :: (b ++ ' ' :: c)) <+: joinSpace (a :: b :: c :: rest) := by
  cases rest with
  | nil => exact List.prefix_refl _
  | cons r rs =>
    rw [joinSpace_cons_of_ne a (by simp), joinSpace_cons_of_ne b (by simp),
      joinSpace_cons_of_ne c (by simp)]
    refine ⟨' ' :: joinSpace (r :: rs), ?_⟩
    simp

/-- C1 (amended): with the built index holding exactly `"quantum field
theory"` and `"field"` and an empty recency set, every fragment whose word
sequence contains the consecutive words `quantum`, `field`, `theory` starting
at word position at most 2 is matched to `"quantum field theory"` (hence
`"field"` is not surfaced): the phrase then lies inside the very first
scanned window, where the longer term is tried first. For fragments where
the phrase starts later, the original claim fails (see the counterexample):
an earlier window can contain `"field"` alone. -/
theorem c1_amended (words : List Str) (p : Nat) (hp : p ≤ 2)
    (hphrase : (words.drop p).take 3 = [quantumW, fieldW, theoryW]) :
    slidingScan (sortKeywordEntries c1Index) [] words
      = some (qftKey, "def1".toList, ⟨true, qftKey⟩) := by
  have hlen3 : 3 ≤ (words.drop p).length := by
    have h1 : ((words.drop p).take 3).length = 3 := by rw [hphrase]; rfl
    rw [List.length_take] at h1
    omega
  have hn : p + 3 ≤ words.length := by
    rw [List.length_drop] at hlen3
    omega
  have hm3 : p + 3 ≤ min 5 words.length := by omega
  have hm0 : 0 < min 5 words.length := by omega
  set m := min 5 words.length with hm
  -- the phrase is an infix of the first window
  have hdt : (words.take m).drop p = [quantumW, fieldW, theoryW] ++ ((words.take m).drop p).drop 3 := by
    have h1 : ((words.take m).drop p).take 3 = [quantumW, fieldW, theoryW] := by
      rw [List.drop_take, List.take_take, min_eq_left (by omega)]
      exact hphrase
    conv_lhs => rw [← List.take_append_drop 3 ((words.take m).drop p)]
    rw [h1]
  have hphrEq : qftKey = quantumW ++ ' ' :: (fieldW ++ ' ' :: theoryW) := by decide
  have hpre : (quantumW ++ ' ' :: (fieldW ++ ' ' :: theoryW)) <+: joinSpace ((words.take m).drop p) := by
    rw [hdt]
    exact phrase_prefix_joinSpace quantumW fieldW theoryW _
  have hwin : qftKey <:+: joinSpace (words.take m) := by
    rw [hphrEq]
    rcases Nat.eq_zero_or_pos p with hp0 | hp0
    · subst hp0
      rw [List.drop_zero] at hpre
      exact List.IsPrefix.isInfix hpre
    · have hsplit : words.take m = (words.take m).take p ++ (words.take m).drop p :=
        (List.take_append_drop p (words.take m)).symm
      have htne : (words.take m).take p ≠ [] := by
        have : ((words.take m).take p).length = p := by
          rw [List.length_take, List.length_take]
          omega
        intro hc
        rw [hc] at this
        simp at this
        omega
      have hdne : (words.take m).drop p ≠ [] := by
        rw [hdt]
        simp
      obtain ⟨t, ht⟩ := hpre
      refine ⟨joinSpace ((words.take m).take p) ++ [' '], t, ?_⟩
      conv_rhs => rw [hsplit, joinSpace_append_of_ne htne hdne]
      rw [← ht]
      simp
  have hinc : strIncludes (joinSpace ((words.drop 0).take m)) qftKey = true := by
    rw [List.drop_zero]
    exact strIncludes_complete hwin
  -- the first scanned keyword accepts the first window
  have hscan : scanKeywords [] (joinSpace ((words.drop 0).take m)) m (sortKeywordEntries c1Index)
      = some (qftKey, "def1".toList, ⟨true, qftKey⟩) := by
    have hsort : sortKeywordEntries c1Index
        = [(qftKey, "def1".toList), (fieldKey, "def2".toList)] := by decide
    have hnorm : normalizeText qftKey = qftKey := by decide
    rw [hsort]
    simp only [scanKeywords, List.not_mem_nil, if_false, hnorm, hinc, Bool.or_true,
      if_true]
  -- assemble the sliding scan: first window size, first offset
  obtain ⟨k, hk⟩ : ∃ k, m = k + 1 := ⟨m - 1, by omega⟩
  have hsizes : (List.range m).reverse.map (· + 1)
      = m :: (List.range k).reverse.map (· + 1) := by
    rw [hk, List.range_succ, List.reverse_append]
    rfl
  have hoff : List.range (words.length - m + 1)
      = 0 :: (List.range (words.length - m)).map Nat.succ :=
    List.range_succ_eq_map _
  unfold slidingScan
  rw [← hm, hsizes]
  simp only [firstSome]
  rw [hoff]
  simp only [firstSome]
  rw [hscan]

/-- Witness for C1 (amended): a fragment starting with the phrase surfaces
`"quantum field theory"`. -/
theorem c1_witness :
    slidingScan (sortKeywordEntries c1Index) []
        (splitWords (normalizeText ("Quantum field theory, explained today!".toList)))
      = some (qftKey, "def1".toList, ⟨true, qftKey⟩) :=
  c1_amended (splitWords (normalizeText ("Quantum field theory, explained today!".toList)))
    0 (by decide) (by decide)

/-- `Char.toLower` shifts an upper-case code point by 32. -/
theorem toLower_toNat_of_upper {c : Char} (h1 : 65 ≤ c.toNat) (h2 : c.toNat ≤ 90) :
    (Char.toLower c).toNat = c.toNat + 32 := by
  unfold Char.toLower
  rw [if_pos ⟨h1, h2⟩]
  have hv : (c.toNat + 32).isValidChar := Or.inl (by omega)
  rw [Char.ofNat, dif_pos hv]
  rfl

/-- `Char.toLower` fixes everything outside the upper-case range. -/
theorem toLower_eq_self_of_not_upper {c : Char} (h : ¬(65 ≤ c.toNat ∧ c.toNat ≤ 90)) :
    Char.toLower c = c := by
  unfold Char.toLower
  rw [if_neg h]

/-- Lowercasing is idempotent on characters. -/
theorem toLower_idem (c : Char) :
    Char.toLower (Char.toLower c) = Char.toLower c := by
  by_cases h : 65 ≤ c.toNat ∧ c.toNat ≤ 90
  · have h3 := toLower_toNat_of_upper h.1 h.2
    exact toLower_eq_self_of_not_upper (by omega)
  · rw [toLower_eq_self_of_not_upper h]
    exact toLower_eq_self_of_not_upper h

/-- Characters of the collapse output: plain spaces or kept non-space input. -/
theorem mem_collapseWsAux {b : Bool} {l : Str} {c : Char}
    (h : c ∈ collapseWsAux b l) : c = ' ' ∨ (c ∈ l ∧ isJsSpace c = false) := by
  induction l generalizing b with
  | nil => simp [collapseWsAux] at h
  | cons d t ih =>
    unfold collapseWsAux at h
    split at h
    · split at h
      · rcases ih h with h' | ⟨h1, h2⟩
        · exact Or.inl h'
        · exact Or.inr ⟨List.mem_cons_of_mem d h1, h2⟩
      · rcases List.mem_cons.mp h with rfl | h'
        · exact Or.inl rfl
        · rcases ih h' with h'' | ⟨h1, h2⟩
          · exact Or.inl h''
          · exact Or.inr ⟨List.mem_cons_of_mem d h1, h2⟩
    · rename_i hd
      rcases List.mem_cons.mp h with rfl | h'
      · exact Or.inr ⟨List.mem_cons_self c t, by simpa using hd⟩
      · rcases ih h' with h'' | ⟨h1, h2⟩
        · exact Or.inl h''
        · exact Or.inr ⟨List.mem_cons_of_mem d h1, h2⟩

/-- Trimming only removes characters. -/
theorem mem_trimWs {l : Str} {c : Char} (h : c ∈ trimWs l) : c ∈ l := by
  simp only [trimWs, List.mem_reverse] at h
  exact (List.dropWhile_sublist _).subset
    (List.mem_reverse.mp ((List.dropWhile_sublist _).subset h))

/-- Every character of a normalized string is a plain space or a
lowercase-stable word character. -/
theorem normalize_chars {s : Str} {c : Char} (h : c ∈ normalizeText s) :
    c = ' ' ∨ (isWordChar c = true ∧ isJsSpace c = false ∧ Char.toLower c = c) := by
  unfold normalizeText at h
  have h1 := mem_trimWs h
  rcases mem_collapseWsAux h1 with rfl | ⟨h2, hns⟩
  · exact Or.inl rfl
  · right
    obtain ⟨b, hb, rfl⟩ := List.mem_map.mp h2
    obtain ⟨a, _, rfl⟩ := List.mem_map.mp hb
    by_cases hw : (isWordChar (Char.toLower a) || isJsSpace (Char.toLower a)) = true
    · rw [punctToSpace, if_pos hw] at hns ⊢
      rcases (by simpa using hw :
          isWordChar (Char.toLower a) = true ∨ isJsSpace (Char.toLower a) = true) with
        hword | hsp
      · exact ⟨hword, hns, toLower_idem a⟩
      · rw [hsp] at hns
        cases hns
    · rw [punctToSpace, if_neg hw] at hns
      cases hns

/-- After a space was just emitted, the collapse output starts non-space. -/
theorem collapseWsAux_head_true {l : Str} :
    ∀ c, (collapseWsAux true l).head? = some c → isJsSpace c = false := by
  induction l with
  | nil => intro c h; simp [collapseWsAux] at h
  | cons d t ih =>
    intro c h
    unfold collapseWsAux at h
    split at h
    · simp only [if_pos rfl] at h
      exact ih c h
    · rename_i hd
      rw [List.head?_cons, Option.some.injEq] at h
      subst h
      simpa using hd


/-- The collapse output never has two adjacent whitespace characters. -/
theorem collapseWsAux_chain (b : Bool) (l : Str) : noTwoSpaces (collapseWsAux b l) := by
  induction l generalizing b with
  | nil => simp [collapseWsAux, noTwoSpaces]
  | cons d t ih =>
    unfold collapseWsAux
    split
    · split
      · exact ih true
      · rw [noTwoSpaces, List.chain'_cons']
        refine ⟨?_, ih true⟩
        intro y hy hcon
        have := collapseWsAux_head_true y hy
        rw [this] at hcon
        exact Bool.false_ne_true hcon.2
    · rename_i hd
      rw [noTwoSpaces, List.chain'_cons']
      refine ⟨?_, ih false⟩
      intro y hy hcon
      exact hd hcon.1

/-- Trimming yields a contiguous slice of the input. -/
theorem trimWs_slice (l : Str) : trimWs l <:+: l := by
  have h1 : l.dropWhile isJsSpace <:+ l := List.dropWhile_suffix _
  have h2 : (l.dropWhile isJsSpace).reverse.dropWhile isJsSpace
      <:+ (l.dropWhile isJsSpace).reverse := List.dropWhile_suffix _
  have h3 : trimWs l <+: l.dropWhile isJsSpace := by
    have h4 := List.reverse_prefix.mpr h2
    rw [List.reverse_reverse] at h4
    exact h4
  exact List.IsInfix.trans (List.IsPrefix.isInfix h3) (List.IsSuffix.isInfix h1)

/-- A trimmed string does not start with whitespace. -/
theorem trimWs_head {l : Str} :
    ∀ c, (trimWs l).head? = some c → isJsSpace c = false := by
  intro c h
  have h2 : (l.dropWhile isJsSpace).reverse.dropWhile isJsSpace
      <:+ (l.dropWhile isJsSpace).reverse := List.dropWhile_suffix _
  have h3 : trimWs l <+: l.dropWhile isJsSpace := by
    have h4 := List.reverse_prefix.mpr h2
    rw [List.reverse_reverse] at h4
    exact h4
  obtain ⟨t, ht⟩ := h3
  have hh := List.head?_dropWhile_not isJsSpace l
  rw [← ht] at hh
  cases htr : trimWs l with
  | nil => rw [htr] at h; cases h
  | cons x xs =>
    rw [htr] at h
    rw [List.head?_cons, Option.some.injEq] at h
    subst h
    rw [htr] at hh
    simpa using hh

/-- A trimmed string does not end with whitespace. -/
theorem trimWs_getLast {l : Str} :
    ∀ c, (trimWs l).getLast? = some c → isJsSpace c = false := by
  intro c h
  rw [trimWs, List.getLast?_reverse] at h
  have hh := List.head?_dropWhile_not isJsSpace (l.dropWhile isJsSpace).reverse
  rw [h] at hh
  exact hh

/-- Dropping a leading run is the identity when the head fails the test. -/
theorem dropWhile_eq_self_of_head {p : Char → Bool} {l : Str}
    (h : ∀ c, l.head? = some c → p c = false) : l.dropWhile p = l := by
  cases l with
  | nil => rfl
  | cons d t =>
    rw [List.dropWhile_cons_of_neg]
    rw [h d rfl]
    exact Bool.false_ne_true

/-- Trimming fixes strings with non-space ends. -/
theorem trimWs_eq_self {l : Str}
    (hh : ∀ c, l.head? = some c → isJsSpace c = false)
    (hl : ∀ c, l.getLast? = some c → isJsSpace c = false) : trimWs l = l := by
  rw [trimWs, dropWhile_eq_self_of_head hh, dropWhile_eq_self_of_head
    (by intro c hc; rw [List.head?_reverse] at hc; exact hl c hc),
    List.reverse_reverse]

/-- Collapsing fixes strings whose spaces are single plain spaces. -/
theorem collapseWsAux_eq_self {l : Str} (hchain : noTwoSpaces l)
    (hsp : ∀ c ∈ l, isJsSpace c = true → c = ' ') :
    collapseWsAux false l = l ∧
      ((∀ c, l.head? = some c → isJsSpace c = false) → collapseWsAux true l = l) := by
  induction l with
  | nil => exact ⟨rfl, fun _ => rfl⟩
  | cons d t ih =>
    have hchain_t : noTwoSpaces t := hchain.tail
    have hsp_t : ∀ c ∈ t, isJsSpace c = true → c = ' ' :=
      fun c hc => hsp c (List.mem_cons_of_mem d hc)
    obtain ⟨ih1, ih2⟩ := ih hchain_t hsp_t
    constructor
    · cases hd : isJsSpace d with
      | true =>
        have hd' : d = ' ' := hsp d (List.mem_cons_self d t) hd
        have hht : ∀ c, t.head? = some c → isJsSpace c = false := by
          intro c hc
          rw [noTwoSpaces, List.chain'_cons'] at hchain
          have := hchain.1 c hc
          cases hcs : isJsSpace c with
          | false => rfl
          | true => exact absurd ⟨hd, hcs⟩ this
        show collapseWsAux false (d :: t) = d :: t
        simp only [collapseWsAux]
        rw [if_pos hd, if_neg (by decide : ¬((false : Bool) = true)), ih2 hht, hd']
      | false =>
        show collapseWsAux false (d :: t) = d :: t
        simp only [collapseWsAux]
        rw [if_neg (by simp [hd]), ih1]
    · intro hh
      have hd : isJsSpace d = false := hh d rfl
      show collapseWsAux true (d :: t) = d :: t
      simp only [collapseWsAux]
      rw [if_neg (by simp [hd]), ih1]

/-- Lowercasing fixes strings of lowercase-stable characters. -/
theorem map_toLower_eq_self {l : Str} (h : ∀ c ∈ l, Char.toLower c = c) :
    l.map Char.toLower = l := by
  induction l with
  | nil => rfl
  | cons d t ih =>
    rw [List.map_cons, h d (List.mem_cons_self d t),
      ih (fun c hc => h c (List.mem_cons_of_mem d hc))]

/-- Punctuation replacement fixes strings of word or space characters. -/
theorem map_punctToSpace_eq_self {l : Str}
    (h : ∀ c ∈ l, (isWordChar c || isJsSpace c) = true) :
    l.map punctToSpace = l := by
  induction l with
  | nil => rfl
  | cons d t ih =>
    rw [List.map_cons, punctToSpace, if_pos (h d (List.mem_cons_self d t)),
      ih (fun c hc => h c (List.mem_cons_of_mem d hc))]

/-- A normalized string never has two adjacent whitespace characters. -/
theorem normalize_noTwoSpaces (s : Str) : noTwoSpaces (normalizeText s) :=
  List.Chain'.infix (collapseWsAux_chain false _) (trimWs_slice _)

/-- C10: normalization is a total function (a total Lean function by
construction) and idempotent — `normalize(normalize(x)) = normalize(x)` for
every input string — and on the spec's example
`normalize("Wave-Particle   Duality!!")` equals
`normalize(normalize("Wave-Particle   Duality!!"))` equals
`"wave particle duality"`. -/
theorem c10_normalize_idempotent :
    (∀ x : Str, normalizeText (normalizeText x) = normalizeText x) ∧
    normalizeText ("Wave-Particle   Duality!!".toList) = ("wave particle duality".toList) ∧
    normalizeText (normalizeText ("Wave-Particle   Duality!!".toList))
      = ("wave particle duality".toList) := by
  refine ⟨?_, by decide, by decide⟩
  intro x
  have hchars := fun c hc => normalize_chars (s := x) (c := c) hc
  have h1 : (normalizeText x).map Char.toLower = normalizeText x := by
    apply map_toLower_eq_self
    intro c hc
    rcases hchars c hc with rfl | ⟨_, _, h⟩
    · decide
    · exact h
  have h2 : (normalizeText x).map punctToSpace = normalizeText x := by
    apply map_punctToSpace_eq_self
    intro c hc
    rcases hchars c hc with rfl | ⟨hw, _, _⟩
    · decide
    · rw [hw]
      rfl
  have h3 : collapseWs (normalizeText x) = normalizeText x := by
    refine (collapseWsAux_eq_self (normalize_noTwoSpaces x) ?_).1
    intro c hc hcs
    rcases hchars c hc with rfl | ⟨_, hns, _⟩
    · rfl
    · rw [hns] at hcs
      cases hcs
  have h4 : trimWs (normalizeText x) = normalizeText x :=
    trimWs_eq_self (fun c hc => trimWs_head c hc) (fun c hc => trimWs_getLast c hc)
  show trimWs (collapseWs (((normalizeText x).map Char.toLower).map punctToSpace))
      = normalizeText x
  rw [h1, h2, h3, h4]
